import Mathlib

/-!
Shallow embedding of the `vmal` assembler and virtual machine
(`src/assembler.rs`, `src/vm.rs`).

Strings are modelled as `List Char` (Rust `&str` over the ASCII inputs the
program handles); the helper functions below mirror the Rust standard-library
operations the source uses (`trim`, `split`, `split_once`, `to_uppercase`,
`from_str_radix`).  Machine integers (`isize`) are modelled as `Int` with the
explicit `& 0xffffffff` masking the source performs; fallible code (process
exit via `print_error`, index-out-of-bounds panics) is modelled with
`Except`/`Option`.
-/

namespace Vmal

-- `DecidableEq` for `Except`, so concrete assembler runs can be settled by `decide`.
deriving instance DecidableEq for Except

/-! ### Characters and lists of characters -/

/-- Whitespace as trimmed by Rust's `str::trim` (ASCII subset). -/
def isWs (c : Char) : Bool :=
  c = ' ' ∨ c = '\t' ∨ c = '\n' ∨ c = '\r'

/-- Strip leading whitespace (left half of Rust `str::trim`). -/
def trimLeft : List Char → List Char
  | [] => []
  | c :: rest => if isWs c then trimLeft rest else c :: rest

/-- Strip trailing whitespace (right half of Rust `str::trim`). -/
def trimRight : List Char → List Char
  | [] => []
  | c :: rest =>
    let r := trimRight rest
    if r = [] ∧ isWs c then [] else c :: r

/-- Rust `str::trim`. -/
def trim (s : List Char) : List Char :=
  trimRight (trimLeft s)

/-- Rust `str::split(sep)`: always returns at least one (possibly empty) piece. -/
def splitOnChar (sep : Char) : List Char → List (List Char)
  | [] => [[]]
  | c :: rest =>
    if c = sep then [] :: splitOnChar sep rest
    else
      match splitOnChar sep rest with
      | [] => [[c]]
      | x :: xs => (c :: x) :: xs

/-- Rust `str::split_once(sep)` for a one-character separator. -/
def splitOnceChar (sep : Char) : List Char → Option (List Char × List Char)
  | [] => none
  | c :: rest =>
    if c = sep then some ([], rest)
    else
      match splitOnceChar sep rest with
      | none => none
      | some (a, b) => some (c :: a, b)

/-- ASCII uppercasing of one character (Rust `str::to_uppercase` on the
mnemonics, which are ASCII). -/
def upChar (c : Char) : Char :=
  if 'a' ≤ c ∧ c ≤ 'z' then Char.ofNat (c.toNat - 32) else c

/-- Rust `str::to_uppercase` (ASCII). -/
def toUpper (s : List Char) : List Char :=
  s.map upChar

/-- ASCII lowercasing of one character (Rust `str::to_lowercase` on a
one-character slice). -/
def lowChar (c : Char) : Char :=
  if 'A' ≤ c ∧ c ≤ 'Z' then Char.ofNat (c.toNat + 32) else c

/-! ### Machine integers

`isize` values are modelled as `Int`.  The source masks stored values with
`& INT_MAX` where `INT_MAX = 0xffffffff`. -/

/-- The constant `INT_MAX: isize = 0xffffffff` (`vm.rs` line 6). -/
def INT_MAX : Int := 0xffffffff

/-- Two's-complement bitwise AND, Rust `&` on `isize`.
On nonnegative operands it is `Nat.land`.  A negative operand
`Int.negSucc a = -(a+1)` has bit pattern `NOT a`, and
`b AND (NOT a) = b - (b AND a)` because `b AND a` is the sub-pattern of `b`'s
bits shared with `a` (so the subtraction clears exactly those bits).
This definition agrees with Mathlib's `Int.land` but evaluates inside the
kernel, which `Nat.ldiff` does not. -/
def iand : Int → Int → Int
  | .ofNat a, .ofNat b => .ofNat (Nat.land a b)
  | .ofNat a, .negSucc b => .ofNat (a - Nat.land a b)
  | .negSucc a, .ofNat b => .ofNat (b - Nat.land b a)
  | .negSucc a, .negSucc b => .negSucc (Nat.lor a b)

/-- Bounds on `isize`: the source parses literals with
`isize::from_str_radix`, which fails on 64-bit overflow. -/
def isizeMax : Int := 2 ^ 63 - 1

def isizeMin : Int := -(2 ^ 63)

/-- Value of one digit character, as accepted by Rust `from_str_radix`
(digits and letters, case-insensitive). -/
def charDigit (c : Char) : Option Nat :=
  if '0' ≤ c ∧ c ≤ '9' then some (c.toNat - '0'.toNat)
  else if 'a' ≤ c ∧ c ≤ 'z' then some (c.toNat - 'a'.toNat + 10)
  else if 'A' ≤ c ∧ c ≤ 'Z' then some (c.toNat - 'A'.toNat + 10)
  else none

/-- Accumulate the digits of a nonempty digit string in the given radix. -/
def digitsToNat (radix : Nat) : Nat → List Char → Option Nat
  | _, [] => none
  | acc, [c] =>
    match charDigit c with
    | some d => if d < radix then some (acc * radix + d) else none
    | none => none
  | acc, c :: rest =>
    match charDigit c with
    | some d => if d < radix then digitsToNat radix (acc * radix + d) rest else none
    | none => none

/-- Rust `isize::from_str_radix`: optional sign, then a nonempty digit
string; fails on a bad digit, an empty digit string, or 64-bit overflow. -/
def from_str_radix (s : List Char) (radix : Nat) : Option Int :=
  match s with
  | '+' :: rest =>
    match digitsToNat radix 0 rest with
    | some n => if (n : Int) ≤ isizeMax then some (n : Int) else none
    | none => none
  | '-' :: rest =>
    match digitsToNat radix 0 rest with
    | some n => if isizeMin ≤ -(n : Int) then some (-(n : Int)) else none
    | none => none
  | _ =>
    match digitsToNat radix 0 s with
    | some n => if (n : Int) ≤ isizeMax then some (n : Int) else none
    | none => none

/-- Rust `str::strip_prefix` for a two-character prefix (`"0x"` / `"0b"`). -/
def stripPfx2 (p1 p2 : Char) : List Char → Option (List Char)
  | c1 :: c2 :: rest => if c1 = p1 ∧ c2 = p2 then some rest else none
  | _ => none

/-- Literal parsing, `parse_number` (`assembler.rs` lines 84-103): `0x` hexadecimal, `0b`
binary, else decimal; the error names the base that failed. -/
def parse_number (s : List Char) : Except String Int :=
  match stripPfx2 '0' 'x' s with
  | some b =>
    match from_str_radix b 16 with
    | some r => .ok r
    | none => .error "hexadecimal"
  | none =>
    match stripPfx2 '0' 'b' s with
    | some b =>
      match from_str_radix b 2 with
      | some r => .ok r
      | none => .error "binary"
    | none =>
      match from_str_radix s 10 with
      | some r => .ok r
      | none => .error "character"

/-! ### Instructions (`assembler.rs` lines 5-46) -/

/-- Set of instructions before labels are calculated. -/
inductive PreInstruction where
  | SA (a : Int)
  | RB (a : Int)
  | RD
  | WR
  | PRINT
  | SB (a : Int)
  | SF (a : Int)
  | GO (lbl : List Char)
  | BIN (lbl : List Char)
  | BIZ (lbl : List Char)
  | ADD (a b : Int)
  | AND (a b : Int)
  | MV (a b : Int)
  | NOT (a b : Int)
  | RS (a b : Int)
  | LS (a b : Int)
  | SW (a b : Int)
  deriving DecidableEq

/-- Set of instructions after labels are calculated. -/
inductive Instruction where
  | SA (a : Int)
  | RB (a : Int)
  | RD
  | WR
  | PRINT
  | SB (a : Int)
  | SF (a : Int)
  | GO (a : Int)
  | BIN (a : Int)
  | BIZ (a : Int)
  | ADD (a b : Int)
  | AND (a b : Int)
  | MV (a b : Int)
  | NOT (a b : Int)
  | RS (a b : Int)
  | LS (a b : Int)
  | SW (a b : Int)
  deriving DecidableEq

/-- The mnemonic table `OP_MAP` (`assembler.rs` lines 49-70), as a lookup function. -/
def opMapGet (op : List Char) : Option Int :=
  if op = "SA".toList then some 0
  else if op = "RB".toList then some 1
  else if op = "RD".toList then some 2
  else if op = "WR".toList then some 3
  else if op = "SB".toList then some 4
  else if op = "SF".toList then some 5
  else if op = "LBL".toList then some (-1)
  else if op = "GO".toList then some 6
  else if op = "BIN".toList then some 7
  else if op = "BIZ".toList then some 8
  else if op = "ADD".toList then some 9
  else if op = "AND".toList then some 10
  else if op = "MV".toList then some 11
  else if op = "NOT".toList then some 12
  else if op = "RS".toList then some 13
  else if op = "LS".toList then some 14
  else if op = "SW".toList then some 15
  else if op = "PRINT".toList then some 16
  else none

def LABEL_OPS : List Int := [-1, 6, 7, 8]

def ZERO_ARG_OPS : List Int := [2, 3, 16]

def ONE_REG_OPS : List Int := [0, 1, 4, 5]

def TWO_REG_OPS : List Int := [9, 10, 11, 12, 13, 14, 15]

/-- The regex `IS_CNAME = [_a-zA-Z][_a-zA-Z0-9]*` is used *unanchored* via
`Regex::is_match`, so it succeeds exactly when the string contains at least
one character of the leading class (the `*` tail may be empty). -/
def isCnameStart (c : Char) : Bool :=
  c = '_' ∨ ('a' ≤ c ∧ c ≤ 'z') ∨ ('A' ≤ c ∧ c ≤ 'Z')

/-- Matching by `IS_CNAME.is_match` (`assembler.rs` line 75, used at line 252). -/
def cnameMatches (s : List Char) : Bool :=
  s.any isCnameStart

/-! ### The assembler (`assembler.rs` lines 105-435) -/

/-- A diagnostic from `print_error` (`assembler.rs` lines 78-82): the 0-based
line index (printed 1-based) and the message.  The source additionally echoes
the offending line's text, which carries no extra information. -/
structure AsmError where
  lineIdx : Nat
  msg : String
  deriving DecidableEq

structure Assembly where
  reg_inits : List (Int × Int)
  mem_inits : List (Int × Int)
  instructions : List Instruction
  deriving DecidableEq

/-- Association-list lookup, modelling `HashMap::get`/`contains_key` for the
label table (whose keys are unique by construction). -/
def alookup (k : List Char) : List (List Char × Int) → Option Int
  | [] => none
  | (k2, v) :: rest => if k2 = k then some v else alookup k rest

/-- Lookup in the `lbl_lines` table (pre-instruction index to source line). -/
def nlookup (k : Nat) : List (Nat × Nat) → Option Nat
  | [] => none
  | (k2, v) :: rest => if k2 = k then some v else nlookup k rest

/-- In-flight state of `Assembly::assemble`'s per-line loop. -/
structure AsmState where
  reg_inits : List (Int × Int)
  mem_inits : List (Int × Int)
  instructions : List PreInstruction
  lbl_lines : List (Nat × Nat)
  label_map : List (List Char × Int)
  deriving DecidableEq

def initState : AsmState :=
  ⟨[], [], [], [], []⟩

/-- The argument list of an instruction line (`assembler.rs` lines 221-226):
trim, split on commas, trim each item, drop empty items. -/
def argsOf (s : List Char) : List (List Char) :=
  ((splitOnChar ',' (trim s)).map trim).filter (fun x => !x.isEmpty)

/-- Initializer handling of `Assembly::assemble` (`assembler.rs` lines
150-207): the part before the colon is a single hex register digit or a
bracketed memory literal, the part after a literal; both are recorded,
errors follow the source's order (location first, then value). -/
def processInit (i : Nat) (bpart epart : List Char) (st : AsmState) : Except AsmError AsmState :=
  let loc := trim bpart
  let valStr := trim epart
  let locRes : Except AsmError (Bool × Int) :=
    if loc.length = 1 then
      match from_str_radix loc 16 with
      | some r => .ok (true, r)
      | none =>
        .error ⟨i, "Invalid register in register initializer - '" ++ String.mk loc ++ "'"⟩
    else if loc.head? = some '[' ∧ loc.getLast? = some ']' then
      let memStr := (loc.drop 1).dropLast
      match parse_number memStr with
      | .ok r => .ok (false, r)
      | .error err =>
        .error ⟨i, "Invalid " ++ err ++ " literal in memory initializer - \"" ++ String.mk memStr ++ "\""⟩
    else
      .error ⟨i, "Invalid syntax for register/memory initializer"⟩
  match locRes with
  | .error e => .error e
  | .ok (isRegInit, reg) =>
    match parse_number valStr with
    | .error err =>
      .error ⟨i, "Invalid " ++ err ++ " literal in initializer - \"" ++ String.mk valStr ++ "\""⟩
    | .ok val =>
      if isRegInit then .ok { st with reg_inits := st.reg_inits ++ [(reg, val)] }
      else .ok { st with mem_inits := st.mem_inits ++ [(reg, val)] }

/-- Label-class dispatch (`assembler.rs` lines 227-275): arity check, then
either the `LBL` pseudo-op (no instruction, bind the name to
`instructions.len() - 1`) or a pending `GO`/`BIN`/`BIZ`. -/
def processLabelOp (i : Nat) (op : List Char) (opNum : Int) (args : List (List Char))
    (st : AsmState) : Except AsmError AsmState :=
  if args.length > 1 then
    .error ⟨i, "Too many arguments for " ++ String.mk op ++ " operation (expected 1 label)"⟩
  else if args.length < 1 then
    .error ⟨i, "Not enough arguments for " ++ String.mk op ++ " operation (expected 1 label)"⟩
  else
    let lbl := args.headD []
    if opNum = -1 then
      if cnameMatches lbl = false then
        .error ⟨i, "Label name is not a valid cname - '" ++ String.mk lbl ++ "'"⟩
      else if (alookup lbl st.label_map).isSome then
        .error ⟨i, "Label '" ++ String.mk lbl ++ "' already defined"⟩
      else
        .ok { st with label_map := (lbl, (st.instructions.length : Int) - 1) :: st.label_map }
    else
      let pre : PreInstruction :=
        if op = "GO".toList then .GO lbl
        else if op = "BIN".toList then .BIN lbl
        else .BIZ lbl
      .ok { st with
        instructions := st.instructions ++ [pre],
        lbl_lines := (st.instructions.length, i) :: st.lbl_lines }

/-- Zero-argument dispatch (`assembler.rs` lines 276-296). -/
def processZeroArg (i : Nat) (op : List Char) (args : List (List Char))
    (st : AsmState) : Except AsmError AsmState :=
  if args.length > 0 then
    .error ⟨i, "Too many arguments for " ++ String.mk op ++ " operation (expected no arguments)"⟩
  else
    let pre : PreInstruction :=
      if op = "RD".toList then .RD
      else if op = "WR".toList then .WR
      else .PRINT
    .ok { st with instructions := st.instructions ++ [pre] }

/-- One-register dispatch (`assembler.rs` lines 297-339): the operand must
be a single character and parse as a hex digit. -/
def processOneReg (i : Nat) (op : List Char) (args : List (List Char))
    (st : AsmState) : Except AsmError AsmState :=
  if args.length > 1 then
    .error ⟨i, "Too many arguments for " ++ String.mk op ++ " operation (expected 1 register)"⟩
  else if args.length < 1 then
    .error ⟨i, "Not enough arguments for " ++ String.mk op ++ " operation (expected 1 register)"⟩
  else
    let reg := args.headD []
    if reg.length > 1 then
      .error ⟨i, "Invalid register specifier '" ++ String.mk reg ++ "'"⟩
    else
      match from_str_radix reg 16 with
      | none => .error ⟨i, "Invalid register specifier '" ++ String.mk reg ++ "'"⟩
      | some r =>
        let pre : PreInstruction :=
          if op = "SA".toList then .SA r
          else if op = "RB".toList then .RB r
          else if op = "SB".toList then .SB r
          else .SF r
        .ok { st with instructions := st.instructions ++ [pre] }

/-- Two-register dispatch (`assembler.rs` lines 341-390).  NOTE: unlike the
one-register case, the source has no single-character length check here —
the operands are parsed directly with `from_str_radix(_, 16)`. -/
def processTwoReg (i : Nat) (op : List Char) (args : List (List Char))
    (st : AsmState) : Except AsmError AsmState :=
  if args.length > 2 then
    .error ⟨i, "Too many arguments for " ++ String.mk op ++ " operation (expected 2 registers)"⟩
  else if args.length < 2 then
    .error ⟨i, "Not enough arguments for " ++ String.mk op ++ " operation (expected 2 registers)"⟩
  else
    let reg1s := args.headD []
    let reg2s := args.getD 1 []
    match from_str_radix reg1s 16 with
    | none => .error ⟨i, "Invalid register specifier '" ++ String.mk reg1s ++ "'"⟩
    | some r1 =>
      match from_str_radix reg2s 16 with
      | none => .error ⟨i, "Invalid register specifier '" ++ String.mk reg2s ++ "'"⟩
      | some r2 =>
        let pre : PreInstruction :=
          if op = "ADD".toList then .ADD r1 r2
          else if op = "AND".toList then .AND r1 r2
          else if op = "MV".toList then .MV r1 r2
          else if op = "NOT".toList then .NOT r1 r2
          else if op = "LS".toList then .LS r1 r2
          else if op = "RS".toList then .RS r1 r2
          else .SW r1 r2
        .ok { st with instructions := st.instructions ++ [pre] }

/-- Instruction-line handling of `Assembly::assemble` (`assembler.rs` lines
208-390): split off the mnemonic, uppercase it, validate it, build the
comma-separated argument list, and dispatch on the arity class. -/
def processInstr (i : Nat) (code2 : List Char) (st : AsmState) : Except AsmError AsmState :=
  let code3 := trim code2
  let parts := match splitOnceChar ' ' code3 with
    | some a => (a.fst, true, a.snd)
    | none => (code3, false, [])
  let op := toUpper parts.fst
  let hasSpace := parts.snd.fst
  let args0 := parts.snd.snd
  if op ≠ "RD".toList ∧ op ≠ "WR".toList ∧ op ≠ "PRINT".toList ∧ hasSpace = false then
    .error ⟨i, "Unknown character sequence '" ++ String.mk op ++ "'"⟩
  else
    match opMapGet op with
    | none => .error ⟨i, "Unknown operation '" ++ String.mk op ++ "'"⟩
    | some opNum =>
      let args := argsOf args0
      if LABEL_OPS.contains opNum then processLabelOp i op opNum args st
      else if ZERO_ARG_OPS.contains opNum then processZeroArg i op args st
      else if ONE_REG_OPS.contains opNum then processOneReg i op args st
      else if TWO_REG_OPS.contains opNum then processTwoReg i op args st
      else .ok st

/-- One iteration of the line loop of `Assembly::assemble`
(`assembler.rs` lines 123-391): strip the trailing comment, skip blank
lines, require the semicolon with only blank text after it, then treat the
line as an initializer (colon present) or an instruction. -/
def processLine (i : Nat) (line : List Char) (st : AsmState) : Except AsmError AsmState :=
  let code0 := match splitOnceChar '#' line with
    | some a => a.fst
    | none => line
  let code1 := trim code0
  if code1.isEmpty then .ok st
  else
    match splitOnceChar ';' code1 with
    | none => .error ⟨i, "Missing semicolon"⟩
    | some (bsemi, asemi) =>
      if ¬(trim asemi).isEmpty then
        .error ⟨i, "Extra non-comment character sequence after semicolon - '" ++ String.mk asemi ++ "'"⟩
      else
        match splitOnceChar ':' bsemi with
        | some (bpart, epart) => processInit i bpart epart st
        | none => processInstr i bsemi st

/-- The per-line loop of `Assembly::assemble`: lines are enumerated from 0
and the first error aborts the whole assembly. -/
def runLines : Nat → List (List Char) → AsmState → Except AsmError AsmState
  | _, [], st => .ok st
  | i, l :: rest, st =>
    match processLine i l st with
    | .error e => .error e
    | .ok st2 => runLines (i + 1) rest st2

/-- Resolution of one pending instruction against the label table
(`assembler.rs` lines 392-431).  An undefined label reference fails, citing
the originating line recorded in `lbl_lines` (the Rust `unwrap` on that
table is total by construction; `getD 0` mirrors it). -/
def resolveOne (lm : List (List Char × Int)) (ll : List (Nat × Nat)) (j : Nat) :
    PreInstruction → Except AsmError Instruction
  | .SA a => .ok (.SA a)
  | .RB a => .ok (.RB a)
  | .RD => .ok .RD
  | .WR => .ok .WR
  | .PRINT => .ok .PRINT
  | .SB a => .ok (.SB a)
  | .SF a => .ok (.SF a)
  | .GO l =>
    match alookup l lm with
    | some addr => .ok (.GO addr)
    | none => .error ⟨(nlookup j ll).getD 0, "Undefined label reference - '" ++ String.mk l ++ "'"⟩
  | .BIN l =>
    match alookup l lm with
    | some addr => .ok (.BIN addr)
    | none => .error ⟨(nlookup j ll).getD 0, "Undefined label reference - '" ++ String.mk l ++ "'"⟩
  | .BIZ l =>
    match alookup l lm with
    | some addr => .ok (.BIZ addr)
    | none => .error ⟨(nlookup j ll).getD 0, "Undefined label reference - '" ++ String.mk l ++ "'"⟩
  | .ADD a b => .ok (.ADD a b)
  | .AND a b => .ok (.AND a b)
  | .MV a b => .ok (.MV a b)
  | .NOT a b => .ok (.NOT a b)
  | .RS a b => .ok (.RS a b)
  | .LS a b => .ok (.LS a b)
  | .SW a b => .ok (.SW a b)

/-- The second (resolution) pass over the enumerated pending instructions. -/
def resolveAll (lm : List (List Char × Int)) (ll : List (Nat × Nat)) :
    Nat → List PreInstruction → Except AsmError (List Instruction)
  | _, [] => .ok []
  | j, p :: rest =>
    match resolveOne lm ll j p with
    | .error e => .error e
    | .ok ins =>
      match resolveAll lm ll (j + 1) rest with
      | .error e => .error e
      | .ok l => .ok (ins :: l)

/-- The body of `Assembly::assemble` on a list of characters: split the file on
newlines, run the per-line loop, then resolve labels. -/
def assembleL (file : List Char) : Except AsmError Assembly :=
  match runLines 0 (splitOnChar '\n' file) initState with
  | .error e => .error e
  | .ok st =>
    match resolveAll st.label_map st.lbl_lines 0 st.instructions with
    | .error e => .error e
    | .ok ins => .ok ⟨st.reg_inits, st.mem_inits, ins⟩

/-- Entry point `Assembly::assemble` (`assembler.rs` line 113). -/
def assemble (file : String) : Except AsmError Assembly :=
  assembleL file.toList

/-! ### The virtual machine (`vm.rs`) -/

/-- Engine state (`vm.rs` lines 7-16): sixteen `isize` registers, a sparse
`HashMap` memory, `MAR`/`MBR`, and the two flags.  The display-only
`linecount` field is omitted.  The memory map is modelled as a
duplicate-free association list. -/
structure VM where
  registers : List Int
  memory : List (Int × Int)
  MAR : Int
  MBR : Int
  N : Bool
  Z : Bool
  deriving DecidableEq

/-- Insertion as `HashMap::insert`: replace the binding if the key is present, else add it. -/
def mapInsert (k v : Int) : List (Int × Int) → List (Int × Int)
  | [] => [(k, v)]
  | (k2, v2) :: rest => if k2 = k then (k, v) :: rest else (k2, v2) :: mapInsert k v rest

/-- Lookup as `HashMap::get`. -/
def mapGet (k : Int) : List (Int × Int) → Option Int
  | [] => none
  | (k2, v) :: rest => if k2 = k then some v else mapGet k rest

/-- Read `self.registers[x as usize]`.  A negative index or an index past the
end is a Rust panic, modelled as `none`. -/
def regGet (regs : List Int) (x : Int) : Option Int :=
  if 0 ≤ x then regs[x.toNat]? else none

/-- Write `self.registers[x as usize] = v`, panicking (`none`) out of bounds. -/
def regSet (regs : List Int) (x : Int) (v : Int) : Option (List Int) :=
  if 0 ≤ x ∧ x.toNat < regs.length then some (regs.set x.toNat v) else none

/-- Apply the register initializers:
`vm.registers[reg as usize] = val & INT_MAX` (`vm.rs` lines 54-56). -/
def applyRegInits (regs : List Int) : List (Int × Int) → Option (List Int)
  | [] => some regs
  | (reg, val) :: rest =>
    match regSet regs reg (iand val INT_MAX) with
    | none => none
    | some regs2 => applyRegInits regs2 rest

/-- Apply the memory initializers:
`vm.memory.insert(mem, val & INT_MAX)` (`vm.rs` lines 63-65). -/
def applyMemInits (mem : List (Int × Int)) : List (Int × Int) → List (Int × Int)
  | [] => mem
  | (k, val) :: rest => applyMemInits (mapInsert k (iand val INT_MAX) mem) rest

/-- Engine construction `VM::new` (`vm.rs` lines 43-68): zero state, user register initializers
(masked), then registers 0, 5, 6, 7 forced to 0, 0, 1, `INT_MAX`, then the
memory initializers (masked). -/
def VM.new (reg_inits mem_inits : List (Int × Int)) : Option VM :=
  match applyRegInits (List.replicate 16 0) reg_inits with
  | none => none
  | some regs =>
    let regs := regs.set 0 0
    let regs := regs.set 5 0
    let regs := regs.set 6 1
    let regs := regs.set 7 INT_MAX
    some ⟨regs, applyMemInits [] mem_inits, 0, 0, false, false⟩

/-- The dispatcher `VM::run_op` (`vm.rs` lines 138-157), dispatching to the per-opcode
methods (lines 75-137).  Out-of-bounds register indexing — a Rust panic — is
`none`.  The source's `match` has **no arm for `Instruction::PRINT`** (the
dispatch is not defined on it), modelled as `none` as well. -/
def run_op (vm : VM) : Instruction → Option VM
  | .SA x =>
    match regGet vm.registers x with
    | none => none
    | some v => some { vm with MAR := v }
  | .RB x =>
    match regSet vm.registers x vm.MAR with
    | none => none
    | some regs => some { vm with registers := regs }
  | .RD => some { vm with MBR := (mapGet vm.MAR vm.memory).getD 0 }
  | .WR => some { vm with memory := mapInsert vm.MAR vm.MBR vm.memory }
  | .SB x =>
    match regGet vm.registers x with
    | none => none
    | some v => some { vm with MBR := v }
  | .SF x =>
    match regGet vm.registers x with
    | none => none
    | some v => some { vm with Z := v = 0, N := iand v 0x80000000 = 0 }
  | .GO i =>
    match regSet vm.registers 0 i with
    | none => none
    | some regs => some { vm with registers := regs }
  | .BIN i =>
    if vm.N then
      match regSet vm.registers 0 i with
      | none => none
      | some regs => some { vm with registers := regs }
    else some vm
  | .BIZ i =>
    if vm.Z then
      match regSet vm.registers 0 i with
      | none => none
      | some regs => some { vm with registers := regs }
    else some vm
  | .ADD a b =>
    match regGet vm.registers a, regGet vm.registers b with
    | some va, some vb =>
      match regSet vm.registers a (iand (va + vb) INT_MAX) with
      | none => none
      | some regs => some { vm with registers := regs }
    | _, _ => none
  | .AND a b =>
    match regGet vm.registers a, regGet vm.registers b with
    | some va, some vb =>
      match regSet vm.registers a (iand (iand va vb) INT_MAX) with
      | none => none
      | some regs => some { vm with registers := regs }
    | _, _ => none
  | .MV a b =>
    match regGet vm.registers b with
    | none => none
    | some vb =>
      match regSet vm.registers a vb with
      | none => none
      | some regs => some { vm with registers := regs }
  | .NOT a b =>
    match regGet vm.registers b with
    | none => none
    | some vb =>
      match regSet vm.registers a (iand (~~~vb) INT_MAX) with
      | none => none
      | some regs => some { vm with registers := regs }
  | .LS a b =>
    match regGet vm.registers b with
    | none => none
    | some vb =>
      match regSet vm.registers a (iand (vb <<< (1 : Int)) INT_MAX) with
      | none => none
      | some regs => some { vm with registers := regs }
  | .RS a b =>
    match regGet vm.registers b with
    | none => none
    | some vb =>
      match regSet vm.registers a (iand (Int.shiftRight vb 1) INT_MAX) with
      | none => none
      | some regs => some { vm with registers := regs }
  | .SW a b =>
    match regGet vm.registers a, regGet vm.registers b with
    | some va, some vb =>
      some { vm with MAR := va, MBR := vb, memory := mapInsert va vb vm.memory }
    | _, _ => none
  | .PRINT => none

/-- Reading `self.registers[0]`, the program counter. -/
def reg0 (vm : VM) : Int :=
  vm.registers.getD 0 0

/-- The batch loop's unconditional `self.registers[0] += 1`
(`vm.rs` line 162). -/
def incPC (vm : VM) : VM :=
  { vm with registers := vm.registers.set 0 (reg0 vm + 1) }

/-- One iteration body of the `while` loop of `run_code`
(`vm.rs` lines 159-163): fetch `code[registers[0] as usize]`, execute it,
increment `registers[0]`.  A panic (negative program counter cast to a huge
`usize`, or an undefined dispatch) is `none`. -/
def loopBody (code : List Instruction) (vm : VM) : Option VM :=
  match (if 0 ≤ reg0 vm then code[(reg0 vm).toNat]? else none) with
  | none => none
  | some op =>
    match run_op vm op with
    | none => none
    | some vm2 => some (incPC vm2)

/-- Result of a (fuel-bounded) batch run. -/
inductive RunResult where
  | done (vm : VM)
  | panicked
  | fuelOut (vm : VM)
  deriving DecidableEq

/-- Batch execution `VM::run_code` (`vm.rs` lines 158-164): loop while
`registers[0] < code.len()`.  The source loop need not terminate, so the
model is fuel-indexed; `fuelOut` reports the state at exhaustion. -/
def run_code (code : List Instruction) : Nat → VM → RunResult
  | 0, vm => .fuelOut vm
  | fuel + 1, vm =>
    if reg0 vm < (code.length : Int) then
      match loopBody code vm with
      | none => .panicked
      | some vm2 => run_code code fuel vm2
    else .done vm

/-! ### The debug stepper (`vm.rs` lines 165-238)

The operator's input is supplied as a list of lines; an exhausted list reads
as Rust `read_line` at end of input, which leaves the buffer empty so the
line is treated as blank.  All terminal display is omitted. -/

/-- The four ways the inner input loop can hand control back to the
stepping loop. -/
inductive DbgCmd where
  | n
  | c
  | r
  | q
  deriving DecidableEq

/-- Interpretation of one raw input line (`vm.rs` lines 202-207): trim it;
if empty it becomes `"n"`, otherwise only its first character, lowercased,
is kept (`s[0..1].to_lowercase()`). -/
def interpInput (s : List Char) : List Char :=
  let t := trim s
  if t.length = 0 then ['n'] else [lowChar (t.headD ' ')]

/-- The inner `loop` of `run_debug` (`vm.rs` lines 194-230): read and
interpret a line; `b` toggles the breakpoint at the current address and
re-prompts (`continue`); `n`, `c`, `r`, `q` leave the loop; anything else is
`panic!()`, modelled as `none`. -/
def promptLoop (pc : Int) : List Int → List (List Char) → Option (List Int × List (List Char) × DbgCmd)
  | bps, [] => some (bps, [], .n)
  | bps, s :: rest =>
    let cmd := interpInput s
    if cmd = ['n'] then some (bps, rest, .n)
    else if cmd = ['b'] then
      promptLoop pc (if bps.contains pc then bps.erase pc else pc :: bps) rest
    else if cmd = ['c'] then some (bps, rest, .c)
    else if cmd = ['r'] then some (bps, rest, .r)
    else if cmd = ['q'] then some (bps, rest, .q)
    else none

/-- Outcome of a (fuel-bounded) debug session: `aborted` is the source's
`return false` (non-completion), `completed` its `return true`. -/
inductive DebugResult where
  | completed (vm : VM)
  | aborted (vm : VM)
  | panicked
  | fuelOut
  deriving DecidableEq

/-- Debug stepping `VM::run_debug` (`vm.rs` lines 165-238).  Arguments mirror the
source's locals: the breakpoint set, the continue-mode flag `cont`
(initially `false`), and the `debug` flag (initially `true`; cleared by
`r`).  Before executing the instruction at the current address the operator
is prompted — unless continue-mode is on and no breakpoint matches, or
`debug` is off.  `q` returns immediately without executing. -/
def run_debug (code : List Instruction) :
    Nat → VM → List Int → Bool → Bool → List (List Char) → DebugResult
  | 0, _, _, _, _, _ => .fuelOut
  | fuel + 1, vm, bps, cont, debug, inputs =>
    if reg0 vm < (code.length : Int) then
      match (if 0 ≤ reg0 vm then code[(reg0 vm).toNat]? else none) with
      | none => .panicked
      | some op =>
        let on_bp := bps.contains (reg0 vm)
        if debug ∧ (cont = false ∨ on_bp) then
          match promptLoop (reg0 vm) bps inputs with
          | none => .panicked
          | some (bps2, inputs2, cmd) =>
            match cmd with
            | .q => .aborted vm
            | .n =>
              match run_op vm op with
              | none => .panicked
              | some vm2 => run_debug code fuel (incPC vm2) bps2 cont debug inputs2
            | .c =>
              match run_op vm op with
              | none => .panicked
              | some vm2 => run_debug code fuel (incPC vm2) bps2 (!cont) debug inputs2
            | .r =>
              match run_op vm op with
              | none => .panicked
              | some vm2 => run_debug code fuel (incPC vm2) bps2 cont false inputs2
        else
          match run_op vm op with
          | none => .panicked
          | some vm2 => run_debug code fuel (incPC vm2) bps cont debug inputs
    else .completed vm

/-! ### Specification-side definitions -/

/-- A character of the identifier regex's continuation class `[_a-zA-Z0-9]`. -/
def isCnameCont (c : Char) : Bool :=
  isCnameStart c ∨ ('0' ≤ c ∧ c ≤ '9')

/-- Modelled from the spec's words for comparison with the code's
`cnameMatches`: "an underscore or letter followed by underscores, letters,
or digits, and nothing else" — i.e. the *whole* name matches
`[_a-zA-Z][_a-zA-Z0-9]*`. -/
def isValidIdentSpec : List Char → Bool
  | [] => false
  | c :: rest => isCnameStart c && rest.all isCnameCont

/-! ### Masking lemmas -/

/-- Values representable in the 32-bit width the engine masks to. -/
def InRange (v : Int) : Prop :=
  0 ≤ v ∧ v ≤ INT_MAX

instance (v : Int) : Decidable (InRange v) :=
  inferInstanceAs (Decidable (0 ≤ v ∧ v ≤ INT_MAX))

theorem INT_MAX_eq : INT_MAX = Int.ofNat 4294967295 := rfl

/-- Masking with `INT_MAX` always lands in `[0, INT_MAX]`. -/
theorem InRange_iand (v : Int) : InRange (iand v INT_MAX) := by
  rw [INT_MAX_eq]
  cases v with
  | ofNat a =>
    refine ⟨Int.ofNat_nonneg _, ?_⟩
    exact Int.ofNat_le.mpr Nat.and_le_right
  | negSucc a =>
    refine ⟨Int.ofNat_nonneg _, ?_⟩
    exact Int.ofNat_le.mpr (Nat.sub_le _ _)

theorem InRange_zero : InRange 0 := by decide

/-! ### Register file and memory map lemmas -/

theorem regSet_eq {regs : List Int} {x v : Int} {regs2 : List Int}
    (h : regSet regs x v = some regs2) :
    0 ≤ x ∧ x.toNat < regs.length ∧ regs2 = regs.set x.toNat v := by
  by_cases hc : 0 ≤ x ∧ x.toNat < regs.length
  · simp only [regSet, if_pos hc, Option.some.injEq] at h
    exact ⟨hc.1, hc.2, h.symm⟩
  · simp only [regSet, if_neg hc] at h
    cases h

theorem mem_of_regGet {regs : List Int} {x v : Int} (h : regGet regs x = some v) :
    v ∈ regs := by
  by_cases hc : 0 ≤ x
  · simp only [regGet, if_pos hc] at h
    rw [← List.get?_eq_getElem?] at h
    exact List.get?_mem h
  · simp only [regGet, if_neg hc] at h
    cases h

theorem inRange_of_get {regs : List Int} (hall : ∀ v ∈ regs, InRange v) {k : Nat} {v : Int}
    (h : regs[k]? = some v) : InRange v := by
  rw [← List.get?_eq_getElem?] at h
  exact hall v (List.get?_mem h)

theorem mem_set_cases {l : List Int} {i : Nat} {a v : Int} (h : v ∈ l.set i a) :
    v = a ∨ v ∈ l := by
  rcases List.mem_or_eq_of_mem_set h with h2 | h2
  · exact Or.inr h2
  · exact Or.inl h2

theorem regsInRange_set_val {regs : List Int} (hall : ∀ v ∈ regs, InRange v)
    (i : Nat) {w : Int} (hw : InRange w) : ∀ v ∈ regs.set i w, InRange v := by
  intro v hv
  rcases mem_set_cases hv with h | h
  · rw [h]; exact hw
  · exact hall v h

theorem regsInRange_set_masked {regs : List Int} (hall : ∀ v ∈ regs, InRange v)
    (i : Nat) (w : Int) : ∀ v ∈ regs.set i (iand w INT_MAX), InRange v :=
  regsInRange_set_val hall i (InRange_iand w)

theorem mem_mapInsert {m : List (Int × Int)} {k v : Int} {p : Int × Int}
    (h : p ∈ mapInsert k v m) : p = (k, v) ∨ p ∈ m := by
  induction m with
  | nil => simpa [mapInsert] using h
  | cons q rest ih =>
    obtain ⟨k2, v2⟩ := q
    by_cases hk : k2 = k
    · simp only [mapInsert, if_pos hk, List.mem_cons] at h
      rcases h with h | h
      · exact Or.inl h
      · exact Or.inr (List.mem_cons_of_mem _ h)
    · simp only [mapInsert, if_neg hk, List.mem_cons] at h
      rcases h with h | h
      · exact Or.inr (by simp [h])
      · rcases ih h with h2 | h2
        · exact Or.inl h2
        · exact Or.inr (List.mem_cons_of_mem _ h2)

theorem mapGet_mem {m : List (Int × Int)} {k v : Int} (h : mapGet k m = some v) :
    (k, v) ∈ m := by
  induction m with
  | nil => simp [mapGet] at h
  | cons q rest ih =>
    obtain ⟨k2, v2⟩ := q
    by_cases hk : k2 = k
    · simp only [mapGet, if_pos hk, Option.some.injEq] at h
      simp [hk, h]
    · simp only [mapGet, if_neg hk] at h
      exact List.mem_cons_of_mem _ (ih h)

/-! ### The range invariant (claim C4) -/

/-- Every register, `MAR`, `MBR`, and every value stored in the memory map
lies within the 32-bit width. -/
def VMInRange (vm : VM) : Prop :=
  (∀ v ∈ vm.registers, InRange v) ∧ InRange vm.MAR ∧ InRange vm.MBR ∧
    ∀ p ∈ vm.memory, InRange p.2

instance (vm : VM) : Decidable (VMInRange vm) :=
  inferInstanceAs (Decidable (_ ∧ _ ∧ _ ∧ _))

theorem applyRegInits_inRange {regs : List Int} {inits : List (Int × Int)} {regs2 : List Int}
    (hall : ∀ v ∈ regs, InRange v) (h : applyRegInits regs inits = some regs2) :
    ∀ v ∈ regs2, InRange v := by
  induction inits generalizing regs with
  | nil =>
    simp only [applyRegInits, Option.some.injEq] at h
    rw [← h]; exact hall
  | cons q rest ih =>
    obtain ⟨reg, val⟩ := q
    simp only [applyRegInits] at h
    rcases hs : regSet regs reg (iand val INT_MAX) with _ | regs3
    · rw [hs] at h; cases h
    · rw [hs] at h
      obtain ⟨-, -, heq⟩ := regSet_eq hs
      exact ih (heq ▸ regsInRange_set_masked hall _ _) h

theorem applyMemInits_inRange {m : List (Int × Int)} {inits : List (Int × Int)}
    (hall : ∀ p ∈ m, InRange p.2) :
    ∀ p ∈ applyMemInits m inits, InRange p.2 := by
  induction inits generalizing m with
  | nil => exact hall
  | cons q rest ih =>
    obtain ⟨k, val⟩ := q
    intro p hp
    have hp2 : p ∈ applyMemInits (mapInsert k (iand val INT_MAX) m) rest := hp
    refine ih ?_ p hp2
    intro q hq
    rcases mem_mapInsert hq with h | h
    · rw [h]; exact InRange_iand val
    · exact hall q h

/-- Engine construction establishes the range invariant. -/
theorem VM_new_inRange {ri mi : List (Int × Int)} {vm : VM}
    (h : VM.new ri mi = some vm) : VMInRange vm := by
  simp only [VM.new] at h
  rcases hs : applyRegInits (List.replicate 16 0) ri with _ | regs
  · rw [hs] at h; cases h
  · rw [hs] at h
    simp only [Option.some.injEq] at h
    have hbase : ∀ v ∈ List.replicate 16 (0 : Int), InRange v := by
      intro v hv
      rw [List.eq_of_mem_replicate hv]
      exact InRange_zero
    have hregs : ∀ v ∈ regs, InRange v := applyRegInits_inRange hbase hs
    have h7 : ∀ v ∈ ((((regs.set 0 0).set 5 0).set 6 1).set 7 INT_MAX), InRange v := by
      refine regsInRange_set_val (regsInRange_set_val (regsInRange_set_val
        (regsInRange_set_val hregs 0 InRange_zero) 5 InRange_zero) 6 (by decide)) 7 (by decide)
    rw [← h]
    exact ⟨h7, InRange_zero, InRange_zero, applyMemInits_inRange (by simp)⟩

/-- Core preservation fact: a successful `run_op` keeps `MAR`, `MBR`, the
memory values, and every register in range — except that a branch opcode
writes its operand into register 0 unmasked. -/
theorem run_op_preserves_range {vm : VM} {op : Instruction} {vm' : VM}
    (hinv : VMInRange vm) (hrun : run_op vm op = some vm') :
    InRange vm'.MAR ∧ InRange vm'.MBR ∧ (∀ p ∈ vm'.memory, InRange p.2) ∧
    ∀ k v, vm'.registers[k]? = some v →
      InRange v ∨ (k = 0 ∧ (op = .GO v ∨ op = .BIN v ∨ op = .BIZ v)) := by
  obtain ⟨hregs, hmar, hmbr, hmem⟩ := hinv
  cases op with
  | SA x =>
    simp only [run_op] at hrun
    split at hrun
    · cases hrun
    · cases hrun
      rename_i v hg
      exact ⟨hregs v (mem_of_regGet hg), hmbr, hmem,
        fun k v h => Or.inl (inRange_of_get hregs h)⟩
  | RB x =>
    simp only [run_op] at hrun
    split at hrun
    · cases hrun
    · cases hrun
      rename_i regs2 hs
      obtain ⟨-, -, heq⟩ := regSet_eq hs
      subst heq
      exact ⟨hmar, hmbr, hmem,
        fun k v h => Or.inl (inRange_of_get (regsInRange_set_val hregs _ hmar) h)⟩
  | RD =>
    simp only [run_op] at hrun
    cases hrun
    refine ⟨hmar, ?_, hmem, fun k v h => Or.inl (inRange_of_get hregs h)⟩
    rcases hg : mapGet vm.MAR vm.memory with _ | w
    · simp only [hg, Option.getD_none]
      exact InRange_zero
    · simp only [hg, Option.getD_some]
      exact hmem _ (mapGet_mem hg)
  | WR =>
    simp only [run_op] at hrun
    cases hrun
    refine ⟨hmar, hmbr, ?_, fun k v h => Or.inl (inRange_of_get hregs h)⟩
    intro p hp
    rcases mem_mapInsert hp with h | h
    · rw [h]; exact hmbr
    · exact hmem p h
  | SB x =>
    simp only [run_op] at hrun
    split at hrun
    · cases hrun
    · cases hrun
      rename_i v hg
      exact ⟨hmar, hregs v (mem_of_regGet hg), hmem,
        fun k v h => Or.inl (inRange_of_get hregs h)⟩
  | SF x =>
    simp only [run_op] at hrun
    split at hrun
    · cases hrun
    · cases hrun
      exact ⟨hmar, hmbr, hmem, fun k v h => Or.inl (inRange_of_get hregs h)⟩
  | GO i =>
    simp only [run_op] at hrun
    split at hrun
    · cases hrun
    · cases hrun
      rename_i regs2 hs
      obtain ⟨-, hlen, heq⟩ := regSet_eq hs
      subst heq
      refine ⟨hmar, hmbr, hmem, fun k v h => ?_⟩
      have h2 : (vm.registers.set 0 i)[k]? = some v := h
      have hlen2 : 0 < vm.registers.length := hlen
      by_cases hk : k = 0
      · subst hk
        rw [List.getElem?_set_self hlen2] at h2
        injection h2 with h2
        subst h2
        exact Or.inr ⟨rfl, Or.inl rfl⟩
      · rw [List.getElem?_set_ne (fun hh => hk hh.symm)] at h2
        exact Or.inl (inRange_of_get hregs h2)
  | BIN i =>
    simp only [run_op] at hrun
    by_cases hn : vm.N
    · rw [if_pos hn] at hrun
      split at hrun
      · cases hrun
      · cases hrun
        rename_i regs2 hs
        obtain ⟨-, hlen, heq⟩ := regSet_eq hs
        subst heq
        refine ⟨hmar, hmbr, hmem, fun k v h => ?_⟩
        have h2 : (vm.registers.set 0 i)[k]? = some v := h
        have hlen2 : 0 < vm.registers.length := hlen
        by_cases hk : k = 0
        · subst hk
          rw [List.getElem?_set_self hlen2] at h2
          injection h2 with h2
          subst h2
          exact Or.inr ⟨rfl, Or.inr (Or.inl rfl)⟩
        · rw [List.getElem?_set_ne (fun hh => hk hh.symm)] at h2
          exact Or.inl (inRange_of_get hregs h2)
    · rw [if_neg hn] at hrun
      cases hrun
      exact ⟨hmar, hmbr, hmem, fun k v h => Or.inl (inRange_of_get hregs h)⟩
  | BIZ i =>
    simp only [run_op] at hrun
    by_cases hz : vm.Z
    · rw [if_pos hz] at hrun
      split at hrun
      · cases hrun
      · cases hrun
        rename_i regs2 hs
        obtain ⟨-, hlen, heq⟩ := regSet_eq hs
        subst heq
        refine ⟨hmar, hmbr, hmem, fun k v h => ?_⟩
        have h2 : (vm.registers.set 0 i)[k]? = some v := h
        have hlen2 : 0 < vm.registers.length := hlen
        by_cases hk : k = 0
        · subst hk
          rw [List.getElem?_set_self hlen2] at h2
          injection h2 with h2
          subst h2
          exact Or.inr ⟨rfl, Or.inr (Or.inr rfl)⟩
        · rw [List.getElem?_set_ne (fun hh => hk hh.symm)] at h2
          exact Or.inl (inRange_of_get hregs h2)
    · rw [if_neg hz] at hrun
      cases hrun
      exact ⟨hmar, hmbr, hmem, fun k v h => Or.inl (inRange_of_get hregs h)⟩
  | ADD a b =>
    simp only [run_op] at hrun
    split at hrun
    · split at hrun
      · cases hrun
      · cases hrun
        rename_i regs2 hs
        obtain ⟨-, -, heq⟩ := regSet_eq hs
        subst heq
        exact ⟨hmar, hmbr, hmem,
          fun k v h => Or.inl (inRange_of_get (regsInRange_set_masked hregs _ _) h)⟩
    · cases hrun
  | AND a b =>
    simp only [run_op] at hrun
    split at hrun
    · split at hrun
      · cases hrun
      · cases hrun
        rename_i regs2 hs
        obtain ⟨-, -, heq⟩ := regSet_eq hs
        subst heq
        exact ⟨hmar, hmbr, hmem,
          fun k v h => Or.inl (inRange_of_get (regsInRange_set_masked hregs _ _) h)⟩
    · cases hrun
  | MV a b =>
    simp only [run_op] at hrun
    split at hrun
    · cases hrun
    · rename_i vb hgb
      split at hrun
      · cases hrun
      · cases hrun
        rename_i regs2 hs
        obtain ⟨-, -, heq⟩ := regSet_eq hs
        subst heq
        exact ⟨hmar, hmbr, hmem, fun k v h =>
          Or.inl (inRange_of_get
            (regsInRange_set_val hregs _ (hregs vb (mem_of_regGet hgb))) h)⟩
  | NOT a b =>
    simp only [run_op] at hrun
    split at hrun
    · cases hrun
    · split at hrun
      · cases hrun
      · cases hrun
        rename_i regs2 hs
        obtain ⟨-, -, heq⟩ := regSet_eq hs
        subst heq
        exact ⟨hmar, hmbr, hmem,
          fun k v h => Or.inl (inRange_of_get (regsInRange_set_masked hregs _ _) h)⟩
  | RS a b =>
    simp only [run_op] at hrun
    split at hrun
    · cases hrun
    · split at hrun
      · cases hrun
      · cases hrun
        rename_i regs2 hs
        obtain ⟨-, -, heq⟩ := regSet_eq hs
        subst heq
        exact ⟨hmar, hmbr, hmem,
          fun k v h => Or.inl (inRange_of_get (regsInRange_set_masked hregs _ _) h)⟩
  | LS a b =>
    simp only [run_op] at hrun
    split at hrun
    · cases hrun
    · split at hrun
      · cases hrun
      · cases hrun
        rename_i regs2 hs
        obtain ⟨-, -, heq⟩ := regSet_eq hs
        subst heq
        exact ⟨hmar, hmbr, hmem,
          fun k v h => Or.inl (inRange_of_get (regsInRange_set_masked hregs _ _) h)⟩
  | SW a b =>
    simp only [run_op] at hrun
    split at hrun
    · cases hrun
      rename_i va vb hga hgb
      refine ⟨hregs va (mem_of_regGet hga), hregs vb (mem_of_regGet hgb), ?_,
        fun k v h => Or.inl (inRange_of_get hregs h)⟩
      intro p hp
      rcases mem_mapInsert hp with h | h
      · rw [h]; exact hregs vb (mem_of_regGet hgb)
      · exact hmem p h
    · cases hrun
  | PRINT => simp [run_op] at hrun

/-! ### Batch-loop lemmas (claim C2) -/

theorem run_code_done_pc {code : List Instruction} {fuel : Nat} {vm vm' : VM}
    (h : run_code code fuel vm = .done vm') : (code.length : Int) ≤ reg0 vm' := by
  induction fuel generalizing vm with
  | zero => simp [run_code] at h
  | succ f ih =>
    simp only [run_code] at h
    by_cases hc : reg0 vm < (code.length : Int)
    · rw [if_pos hc] at h
      split at h
      · cases h
      · exact ih h
    · rw [if_neg hc] at h
      injection h with h
      subst h
      exact not_lt.mp hc

theorem getD_set0 {regs : List Int} (h : 0 < regs.length) (t : Int) :
    (regs.set 0 t).getD 0 0 = t := by
  rw [List.getD_eq_getElem?_getD, List.getElem?_set_self h]
  rfl

theorem regSet0_some {regs : List Int} (h : 0 < regs.length) (t : Int) :
    regSet regs 0 t = some (regs.set 0 t) := by
  simp [regSet, h]

/-! ### Claim theorems -/

/-- C2.  Batch run (`run_code`) repeats the loop body while
`registers[0] < code.length`: it fetches `code[registers[0]]`, executes it,
and then unconditionally increments `registers[0]`; a taken branch `GO`/
`BIN`/`BIZ` sets `registers[0]` to its operand `t`, so after the increment
the program counter is `t + 1` — the next instruction executed is the one at
`t + 1`; and the loop stops exactly when `registers[0] ≥ code.length`. -/
theorem C2_batch_loop (code : List Instruction) (fuel : Nat) (vm : VM) :
    ((code.length : Int) ≤ reg0 vm → run_code code (fuel + 1) vm = .done vm) ∧
    (∀ f (v vm' : VM), run_code code f v = .done vm' → (code.length : Int) ≤ reg0 vm') ∧
    (∀ op vm2, reg0 vm < (code.length : Int) → 0 ≤ reg0 vm →
      code[(reg0 vm).toNat]? = some op → run_op vm op = some vm2 →
      run_code code (fuel + 1) vm = run_code code fuel (incPC vm2)) ∧
    (∀ vm2 : VM, 0 < vm2.registers.length → reg0 (incPC vm2) = reg0 vm2 + 1) ∧
    (∀ t, 0 < vm.registers.length →
      (run_op vm (.GO t) = some { vm with registers := vm.registers.set 0 t } ∧
        reg0 (incPC { vm with registers := vm.registers.set 0 t }) = t + 1) ∧
      (vm.N = true →
        run_op vm (.BIN t) = some { vm with registers := vm.registers.set 0 t } ∧
        reg0 (incPC { vm with registers := vm.registers.set 0 t }) = t + 1) ∧
      (vm.Z = true →
        run_op vm (.BIZ t) = some { vm with registers := vm.registers.set 0 t } ∧
        reg0 (incPC { vm with registers := vm.registers.set 0 t }) = t + 1)) := by
  have hpc1 : ∀ (vm2 : VM), 0 < vm2.registers.length → reg0 (incPC vm2) = reg0 vm2 + 1 := by
    intro vm2 h
    simp only [incPC, reg0]
    exact getD_set0 h _
  refine ⟨?_, ?_, ?_, hpc1, ?_⟩
  · intro h
    simp only [run_code]
    rw [if_neg (not_lt.mpr h)]
  · intro f v vm' h
    exact run_code_done_pc h
  · intro op vm2 h1 h2 hfetch hrun
    have hlb : loopBody code vm = some (incPC vm2) := by
      simp only [loopBody, if_pos h2, hfetch, hrun]
    simp only [run_code]
    rw [if_pos h1, hlb]
  · intro t hlen
    have hset : ∀ u : Instruction,
        reg0 (incPC { vm with registers := vm.registers.set 0 t }) = t + 1 := by
      intro _
      have hlen2 : 0 < (vm.registers.set 0 t).length := by simpa using hlen
      simp only [incPC, reg0]
      rw [getD_set0 hlen t, getD_set0 hlen2 (t + 1)]
    refine ⟨⟨?_, hset .RD⟩, fun hn => ⟨?_, hset .RD⟩, fun hz => ⟨?_, hset .RD⟩⟩
    · simp only [run_op]
      rw [regSet0_some hlen]
    · simp only [run_op]
      rw [if_pos hn, regSet0_some hlen]
    · simp only [run_op]
      rw [if_pos hz, regSet0_some hlen]

/-- Witness for C2 at a concrete machine: a one-instruction program with the
program counter already past the end is done immediately, and a taken `GO 5`
leaves the counter at 6 after the increment. -/
theorem C2_batch_loop_witness :
    run_code [Instruction.GO 5] 1 ⟨[3, 0], [], 0, 0, false, false⟩ =
      .done ⟨[3, 0], [], 0, 0, false, false⟩ ∧
    run_op (⟨[3, 0], [], 0, 0, false, false⟩ : VM) (.GO 5) =
      some ⟨[5, 0], [], 0, 0, false, false⟩ ∧
    reg0 (incPC (⟨[5, 0], [], 0, 0, false, false⟩ : VM)) = 6 := by
  refine ⟨(C2_batch_loop [Instruction.GO 5] 0 ⟨[3, 0], [], 0, 0, false, false⟩).1 (by decide),
    ?_, ?_⟩
  · have h := (((C2_batch_loop [] 0 ⟨[3, 0], [], 0, 0, false, false⟩).2.2.2.2) 5 (by decide)).1.1
    simpa using h
  · exact ((C2_batch_loop [] 0 ⟨[5, 0], [], 0, 0, false, false⟩).2.2.2.1)
      ⟨[5, 0], [], 0, 0, false, false⟩ (by decide)

/-- C3.  Executing `SF x` sets `Z` to true iff `registers[x] = 0` and `N` to
true iff bit 31 of `registers[x]` is *clear* (`registers[x] & 0x80000000 = 0`,
equivalently `testBit 31` is false), leaving registers, memory, `MAR` and
`MBR` unchanged. -/
theorem C3_SF_flags (vm : VM) (x v : Int)
    (hx0 : 0 ≤ x) (hv : vm.registers[x.toNat]? = some v) :
    ∃ vm', run_op vm (.SF x) = some vm' ∧
      (vm'.Z = true ↔ v = 0) ∧
      (vm'.N = true ↔ iand v 0x80000000 = 0) ∧
      (0 ≤ v → (vm'.N = true ↔ v.toNat.testBit 31 = false)) ∧
      vm'.registers = vm.registers ∧ vm'.memory = vm.memory ∧
      vm'.MAR = vm.MAR ∧ vm'.MBR = vm.MBR := by
  have hg : regGet vm.registers x = some v := by
    simp only [regGet, if_pos hx0, hv]
  refine ⟨{ vm with Z := decide (v = 0), N := decide (iand v 0x80000000 = 0) },
    ?_, by simp, by simp, ?_, rfl, rfl, rfl, rfl⟩
  · simp only [run_op, hg]
  · intro h0
    obtain ⟨a, rfl⟩ := Int.eq_ofNat_of_zero_le h0
    show decide (iand (Int.ofNat a) 0x80000000 = 0) = true ↔ a.testBit 31 = false
    rw [decide_eq_true_eq]
    show ((Nat.land a 2147483648 : Nat) : Int) = 0 ↔ a.testBit 31 = false
    rw [Int.natCast_eq_zero]
    have h31 : (2147483648 : Nat) = 2 ^ 31 := by norm_num
    rw [h31]
    show a &&& 2 ^ 31 = 0 ↔ a.testBit 31 = false
    rw [Nat.and_two_pow]
    cases hb : a.testBit 31 <;> simp [hb]

/-- Witness for C3 at a concrete state: `SF 5` on a fresh machine sets both
flags (register 5 is 0, whose sign bit is clear). -/
theorem C3_SF_flags_witness :
    ∃ vm', run_op (⟨[0, 0, 0, 0, 0, 0, 1, 0xffffffff, 0, 0, 0, 0, 0, 0, 0, 0],
        [], 0, 0, false, false⟩ : VM) (.SF 5) = some vm' ∧
      (vm'.Z = true ↔ (0 : Int) = 0) ∧
      (vm'.N = true ↔ iand 0 0x80000000 = 0) ∧
      (0 ≤ (0 : Int) → (vm'.N = true ↔ (0 : Int).toNat.testBit 31 = false)) ∧
      vm'.registers = [0, 0, 0, 0, 0, 0, 1, 0xffffffff, 0, 0, 0, 0, 0, 0, 0, 0] ∧
      vm'.memory = [] ∧ vm'.MAR = 0 ∧ vm'.MBR = 0 :=
  C3_SF_flags ⟨[0, 0, 0, 0, 0, 0, 1, 0xffffffff, 0, 0, 0, 0, 0, 0, 0, 0],
    [], 0, 0, false, false⟩ 5 0 (by decide) (by decide)

/-- C4 counterexample.  The claim asserts that *every* register value lies in
`[0, 2^32 − 1]` after each executed instruction, but a taken `BIZ` writes its
operand into register 0 unmasked, and the label-binding convention produces
the operand `-1` for a label declared before any instruction: after
assembling and running `LBL Foo; SF 5; BIZ Foo;`, the executed `BIZ (-1)`
leaves `registers[0] = -1`, which is not in range. -/
theorem C4_counterexample :
    assemble "LBL Foo;\nSF 5;\nBIZ Foo;" = .ok ⟨[], [], [.SF 5, .BIZ (-1)]⟩ ∧
    Option.map (fun vm : VM => vm.registers.getD 0 0)
      (Option.bind
        (Option.bind (VM.new [] []) (fun vm => run_op vm (.SF 5)))
        (fun vm => run_op vm (.BIZ (-1)))) = some (-1) ∧
    ¬InRange (-1) := by
  refine ⟨by decide, by decide, by decide⟩

/-- C4 (amended).  After engine construction every register value, `MAR`,
`MBR` and every stored memory value lies within `[0, 2^32 − 1]`; after each
executed instruction `MAR`, `MBR`, the memory values, and every register
*other than register 0* are again within `[0, 2^32 − 1]` (in particular the
`ADD`/`AND`/`NOT`/`LS`/`RS` results are masked to the 32-bit width), while
register 0 is either also within range or holds, unmasked, the operand of the
executed branch (`GO`/`BIN`/`BIZ`) — which can be `-1`. -/
theorem C4_range_after_construction_and_step :
    (∀ ri mi vm, VM.new ri mi = some vm → VMInRange vm) ∧
    (∀ (vm : VM) (op : Instruction) (vm' : VM), VMInRange vm → run_op vm op = some vm' →
      InRange vm'.MAR ∧ InRange vm'.MBR ∧ (∀ p ∈ vm'.memory, InRange p.2) ∧
      ∀ k v, vm'.registers[k]? = some v →
        InRange v ∨ (k = 0 ∧ (op = .GO v ∨ op = .BIN v ∨ op = .BIZ v))) :=
  ⟨fun _ _ _ h => VM_new_inRange h,
   fun _ _ _ hinv hrun => run_op_preserves_range hinv hrun⟩

/-- Witness for C4 at concrete inputs: the freshly constructed machine
satisfies the range invariant, and a concrete `WR` step keeps `MAR` in
range. -/
theorem C4_range_witness :
    VMInRange ⟨[0, 0, 0, 0, 0, 0, 1, 0xffffffff, 0, 0, 0, 0, 0, 0, 0, 0],
      [], 0, 0, false, false⟩ ∧
    InRange (VM.MAR ⟨[0, 0, 0, 0, 0, 0, 1, 0xffffffff, 0, 0, 0, 0, 0, 0, 0, 0],
      [(2, 7)], 2, 7, false, false⟩) :=
  ⟨C4_range_after_construction_and_step.1 [] [] _ (by decide),
   (C4_range_after_construction_and_step.2
      ⟨[0, 0, 0, 0, 0, 0, 1, 0xffffffff, 0, 0, 0, 0, 0, 0, 0, 0], [], 2, 7, false, false⟩
      .WR
      ⟨[0, 0, 0, 0, 0, 0, 1, 0xffffffff, 0, 0, 0, 0, 0, 0, 0, 0], [(2, 7)], 2, 7, false, false⟩
      (by decide) (by decide)).1⟩

/-- C5 (code bug).  The spec requires register operands to be exactly one
hexadecimal digit for two-register opcodes as well, so that all register
indices lie in `[0, 15]` and the engine's unchecked indexing is safe.  The
assembler enforces the length check only for one-register opcodes: the
two-register line `ADD 10, 2;` is accepted and produces register index 16,
on which the engine's register access then fails (a Rust index-out-of-bounds
panic, `none` in this model). -/
theorem C5_two_register_operand_unchecked :
    assemble "ADD 10, 2;" = .ok ⟨[], [], [.ADD 16 2]⟩ ∧
    ¬((16 : Int) ≤ 15) ∧
    run_op ⟨[0, 0, 0, 0, 0, 0, 1, 0xffffffff, 0, 0, 0, 0, 0, 0, 0, 0],
      [], 0, 0, false, false⟩ (.ADD 16 2) = none ∧
    assemble "SA 10;" = .error ⟨0, "Invalid register specifier '10'"⟩ := by
  refine ⟨by decide, by decide, by decide, by decide⟩

/-- C6 (code bug).  The spec says the execution dispatcher handles the
`PRINT` opcode (delegating the output side effect and leaving the state
unchanged), and the assembler does produce `PRINT` instructions — but the
`match` in `VM::run_op` has no arm for `Instruction::PRINT` (a
non-exhaustive match), so executing `PRINT` is not defined. -/
theorem C6_print_not_dispatched :
    assemble "PRINT;" = .ok ⟨[], [], [.PRINT]⟩ ∧
    run_op ⟨[0, 0, 0, 0, 0, 0, 1, 0xffffffff, 0, 0, 0, 0, 0, 0, 0, 0],
      [], 0, 0, false, false⟩ .PRINT = none := by
  refine ⟨by decide, by decide⟩

/-! ### String lemmas for the line parser -/

theorem splitOnceChar_not_mem {c : Char} {l : List Char} (h : c ∉ l) :
    splitOnceChar c l = none := by
  induction l with
  | nil => rfl
  | cons x rest ih =>
    have hx : ¬x = c := fun hh => h (by simp [hh])
    have hr : c ∉ rest := fun hh => h (List.mem_cons_of_mem _ hh)
    simp only [splitOnceChar, if_neg hx, ih hr]

theorem splitOnceChar_append {c : Char} {a : List Char} (b : List Char) (h : c ∉ a) :
    splitOnceChar c (a ++ c :: b) = some (a, b) := by
  induction a with
  | nil => simp [splitOnceChar]
  | cons x rest ih =>
    have hx : ¬x = c := fun hh => h (by simp [hh])
    have hr : c ∉ rest := fun hh => h (List.mem_cons_of_mem _ hh)
    show (if x = c then some ([], rest ++ c :: b) else
      match splitOnceChar c (rest ++ c :: b) with
      | none => none
      | some (a2, b2) => some (x :: a2, b2)) = some (x :: rest, b)
    rw [if_neg hx, ih hr]

theorem splitOnChar_not_mem {c : Char} {l : List Char} (h : c ∉ l) :
    splitOnChar c l = [l] := by
  induction l with
  | nil => rfl
  | cons x rest ih =>
    have hx : ¬x = c := fun hh => h (by simp [hh])
    have hr : c ∉ rest := fun hh => h (List.mem_cons_of_mem _ hh)
    simp only [splitOnChar, if_neg hx, ih hr]

theorem splitOnChar_ne_nil (c : Char) (l : List Char) : splitOnChar c l ≠ [] := by
  cases l with
  | nil => simp [splitOnChar]
  | cons x rest =>
    simp only [splitOnChar]
    by_cases hx : x = c
    · simp [hx]
    · rw [if_neg hx]
      rcases hs : splitOnChar c rest with _ | ⟨y, ys⟩ <;> simp

theorem splitOnChar_cons_self (c : Char) (l : List Char) :
    splitOnChar c (c :: l) = [] :: splitOnChar c l := by
  simp [splitOnChar]

theorem splitOnChar_cons_ne (c : Char) {x : Char} (l : List Char) (h : ¬x = c) :
    splitOnChar c (x :: l) =
      match splitOnChar c l with
      | [] => [[x]]
      | h2 :: t2 => (x :: h2) :: t2 := by
  simp [splitOnChar, h]

theorem splitOnChar_append (c : Char) (a b : List Char) :
    splitOnChar c (a ++ c :: b) = splitOnChar c a ++ splitOnChar c b := by
  induction a with
  | nil => simp [splitOnChar_cons_self, splitOnChar]
  | cons x rest ih =>
    by_cases hx : x = c
    · subst hx
      rw [show (x :: rest) ++ x :: b = x :: (rest ++ x :: b) from rfl,
        splitOnChar_cons_self, splitOnChar_cons_self, ih, List.cons_append]
    · rw [show (x :: rest) ++ c :: b = x :: (rest ++ c :: b) from rfl,
        splitOnChar_cons_ne c _ hx, splitOnChar_cons_ne c _ hx, ih]
      rcases hs : splitOnChar c rest with _ | ⟨h2, t2⟩
      · exact absurd hs (splitOnChar_ne_nil c rest)
      · rfl

theorem trimLeft_cons_not_ws {c : Char} (l : List Char) (h : isWs c = false) :
    trimLeft (c :: l) = c :: l := by
  simp [trimLeft, h]

theorem trimRight_cons (c : Char) (l : List Char) :
    trimRight (c :: l) = if trimRight l = [] ∧ isWs c then [] else c :: trimRight l := by
  rfl

theorem trimRight_no_ws {l : List Char} (h : ∀ x ∈ l, isWs x = false) :
    trimRight l = l := by
  induction l with
  | nil => rfl
  | cons x rest ih =>
    have hx : isWs x = false := h x (by simp)
    have hr := ih fun y hy => h y (List.mem_cons_of_mem _ hy)
    simp [trimRight, hr, hx]

theorem trimLeft_no_ws {l : List Char} (h : ∀ x ∈ l, isWs x = false) :
    trimLeft l = l := by
  cases l with
  | nil => rfl
  | cons x rest => exact trimLeft_cons_not_ws _ (h x (by simp))

theorem trim_no_ws {l : List Char} (h : ∀ x ∈ l, isWs x = false) :
    trim l = l := by
  rw [trim, trimLeft_no_ws h, trimRight_no_ws h]

theorem trimRight_nil_iff {l : List Char} :
    trimRight l = [] ↔ ∀ x ∈ l, isWs x = true := by
  induction l with
  | nil => simp [trimRight]
  | cons x rest ih =>
    simp only [trimRight]
    constructor
    · intro h
      by_cases hc : trimRight rest = [] ∧ isWs x = true
      · intro y hy
        rcases List.mem_cons.mp hy with hy | hy
        · rw [hy]; exact hc.2
        · exact ih.mp hc.1 y hy
      · rw [if_neg (by simpa using hc)] at h
        cases h
    · intro h
      have hx : isWs x = true := h x (by simp)
      have hr : trimRight rest = [] := ih.mpr fun y hy => h y (List.mem_cons_of_mem _ hy)
      simp [hr, hx]

theorem trimRight_append {a b : List Char} (h : trimRight b ≠ []) :
    trimRight (a ++ b) = a ++ trimRight b := by
  induction a with
  | nil => rfl
  | cons x rest ih =>
    rw [List.cons_append, List.cons_append, trimRight_cons, ih,
      if_neg (fun hh => h (List.append_eq_nil.mp hh.1).2)]

theorem trimLeft_append_of_ne_nil {a : List Char} (b : List Char) (h : trimLeft a ≠ []) :
    trimLeft (a ++ b) = trimLeft a ++ b := by
  induction a with
  | nil => exact absurd rfl h
  | cons x rest ih =>
    by_cases hx : isWs x
    · have e1 : trimLeft (x :: (rest ++ b)) = trimLeft (rest ++ b) := by
        simp [trimLeft, hx]
      have e2 : trimLeft (x :: rest) = trimLeft rest := by
        simp [trimLeft, hx]
      rw [List.cons_append, e1, e2]
      rw [e2] at h
      exact ih h
    · have hx2 : isWs x = false := by simpa using hx
      rw [List.cons_append, trimLeft_cons_not_ws _ hx2, trimLeft_cons_not_ws _ hx2,
        List.cons_append]

theorem trimRight_idem (l : List Char) : trimRight (trimRight l) = trimRight l := by
  induction l with
  | nil => rfl
  | cons x rest ih =>
    rw [trimRight_cons]
    by_cases hc : trimRight rest = [] ∧ isWs x
    · rw [if_pos hc]; rfl
    · rw [if_neg hc, trimRight_cons, ih, if_neg hc]

theorem trimLeft_trimRight_comm (l : List Char) :
    trimLeft (trimRight l) = trimRight (trimLeft l) := by
  induction l with
  | nil => rfl
  | cons x rest ih =>
    by_cases hx : isWs x
    · by_cases hr : trimRight rest = []
      · rw [trimRight_cons, if_pos ⟨hr, hx⟩]
        simp only [trimLeft, if_pos hx]
        rw [← ih, hr]
        rfl
      · rw [trimRight_cons, if_neg (fun hc => hr hc.1)]
        simp only [trimLeft, if_pos hx]
        exact ih
    · have hx2 : isWs x = false := by simpa using hx
      rw [trimRight_cons, if_neg (fun hc => hx hc.2)]
      rw [trimLeft_cons_not_ws _ hx2, trimLeft_cons_not_ws _ hx2, trimRight_cons,
        if_neg (fun hc => hx hc.2)]

/-- The comma-token pipeline without the outer trim (proof-side helper). -/
def argsFlat (s : List Char) : List (List Char) :=
  ((splitOnChar ',' s).map trim).filter (fun x => !x.isEmpty)

theorem splitOnChar_map_trimRight (l : List Char) :
    (splitOnChar ',' (trimRight l)).map trimRight = (splitOnChar ',' l).map trimRight := by
  induction l with
  | nil => rfl
  | cons x rest ih =>
    by_cases hc : trimRight rest = [] ∧ isWs x
    · rw [trimRight_cons, if_pos hc]
      have hall : ∀ y ∈ x :: rest, isWs y = true := by
        intro y hy
        rcases List.mem_cons.mp hy with hy | hy
        · rw [hy]; exact hc.2
        · exact trimRight_nil_iff.mp hc.1 y hy
      have hnc : ',' ∉ x :: rest := by
        intro hmem
        have := hall ',' hmem
        simp [isWs] at this
      rw [splitOnChar_not_mem hnc]
      simp only [List.map_cons, List.map_nil, splitOnChar]
      rw [trimRight_cons, if_pos hc]
      rfl
    · rw [trimRight_cons, if_neg hc]
      by_cases hx : x = ','
      · subst hx
        rw [splitOnChar_cons_self, splitOnChar_cons_self, List.map_cons, List.map_cons, ih]
      · rw [splitOnChar_cons_ne _ _ hx, splitOnChar_cons_ne _ _ hx]
        rcases hs1 : splitOnChar ',' (trimRight rest) with _ | ⟨h1, t1⟩
        · exact absurd hs1 (splitOnChar_ne_nil _ _)
        · rcases hs2 : splitOnChar ',' rest with _ | ⟨h2, t2⟩
          · exact absurd hs2 (splitOnChar_ne_nil _ _)
          · have hmap := ih
            rw [hs1, hs2] at hmap
            simp only [List.map_cons, List.cons.injEq] at hmap
            simp only [List.map_cons, List.cons.injEq]
            refine ⟨?_, hmap.2⟩
            rw [trimRight_cons, trimRight_cons, hmap.1]
  
theorem trim_eq_left_right (y : List Char) : trim y = trimLeft (trimRight y) := by
  rw [trim, trimLeft_trimRight_comm]

theorem argsFlat_trimRight (l : List Char) : argsFlat (trimRight l) = argsFlat l := by
  have hmap : ∀ L : List (List Char), L.map trim = (L.map trimRight).map trimLeft := by
    intro L
    rw [List.map_map]
    exact List.map_congr_left fun y _ => trim_eq_left_right y
  unfold argsFlat
  rw [hmap, hmap, splitOnChar_map_trimRight]

theorem argsFlat_trimLeft (l : List Char) : argsFlat (trimLeft l) = argsFlat l := by
  induction l with
  | nil => rfl
  | cons x rest ih =>
    by_cases hx : isWs x
    · have h1 : trimLeft (x :: rest) = trimLeft rest := by simp [trimLeft, hx]
      rw [h1, ih]
      have hx2 : ¬x = ',' := by
        intro hh
        rw [hh] at hx
        simp [isWs] at hx
      unfold argsFlat
      simp only [splitOnChar, if_neg hx2]
      rcases hs : splitOnChar ',' rest with _ | ⟨h, t⟩
      · exact absurd hs (splitOnChar_ne_nil _ _)
      · simp only [List.map_cons]
        have htr : trim (x :: h) = trim h := by
          simp [trim, trimLeft, hx]
        rw [htr]
    · have h1 : trimLeft (x :: rest) = x :: rest := trimLeft_cons_not_ws _ (by simpa using hx)
      rw [h1]

theorem argsOf_eq_flat (s : List Char) : argsOf s = argsFlat s := by
  have h1 : argsOf s = argsFlat (trim s) := rfl
  rw [h1, trim, argsFlat_trimRight, argsFlat_trimLeft]

/-- Splitting on commas distributes over a comma: the token lists of the two
sides concatenate.  This is the mechanism behind dropped empty items. -/
theorem argsOf_append (a b : List Char) :
    argsOf (a ++ ',' :: b) = argsOf a ++ argsOf b := by
  rw [argsOf_eq_flat, argsOf_eq_flat, argsOf_eq_flat]
  unfold argsFlat
  rw [splitOnChar_append, List.map_append, List.filter_append]

theorem argsOf_single {name : List Char} (hne : name ≠ [])
    (hws : ∀ c ∈ name, isWs c = false) (hcm : ',' ∉ name) :
    argsOf name = [name] := by
  rw [argsOf_eq_flat]
  unfold argsFlat
  rw [splitOnChar_not_mem hcm]
  simp only [List.map_cons, List.map_nil, trim_no_ws hws]
  rw [List.filter_cons_of_pos (by simpa using hne)]
  rfl

/-- Behaviour of the line loop on a label declaration `LBL <name>;` whose
name contains no whitespace and none of the parser's meta characters: no
instruction is emitted, and a fresh name passing the (unanchored) identifier
check is bound to `instructions.length - 1`. -/
theorem processLine_LBL (i : Nat) (name : List Char) (st : AsmState)
    (hne : name ≠ [])
    (hok : ∀ c ∈ name, isWs c = false ∧ c ≠ ';' ∧ c ≠ '#' ∧ c ≠ ':' ∧ c ≠ ',') :
    processLine i ("LBL ".toList ++ name ++ [';']) st =
      if cnameMatches name = false then
        .error ⟨i, "Label name is not a valid cname - '" ++ String.mk name ++ "'"⟩
      else if (alookup name st.label_map).isSome then
        .error ⟨i, "Label '" ++ String.mk name ++ "' already defined"⟩
      else
        .ok { st with label_map := (name, (st.instructions.length : Int) - 1) :: st.label_map } := by
  have hws : ∀ c ∈ name, isWs c = false := fun c hc => (hok c hc).1
  have hsemi : (';' : Char) ∉ name := fun hm => (hok _ hm).2.1 rfl
  have hhashn : ('#' : Char) ∉ name := fun hm => (hok _ hm).2.2.1 rfl
  have hcoln : (':' : Char) ∉ name := fun hm => (hok _ hm).2.2.2.1 rfl
  have hcomn : (',' : Char) ∉ name := fun hm => (hok _ hm).2.2.2.2 rfl
  have h1 : splitOnceChar '#' ("LBL ".toList ++ name ++ [';']) = none := by
    apply splitOnceChar_not_mem
    intro hm
    rcases List.mem_append.mp hm with hm | hm
    · rcases List.mem_append.mp hm with hm | hm
      · simp at hm
      · exact hhashn hm
    · simp at hm
  have htl : trimLeft ("LBL ".toList ++ name ++ [';']) = "LBL ".toList ++ name ++ [';'] := by
    rw [show "LBL ".toList ++ name ++ [';'] = 'L' :: ("BL ".toList ++ name ++ [';']) from rfl]
    exact trimLeft_cons_not_ws _ (by decide)
  have htrr : trimRight ("LBL ".toList ++ name ++ [';']) = "LBL ".toList ++ name ++ [';'] := by
    rw [trimRight_append (show trimRight [';'] ≠ [] by decide)]
    rfl
  have htrim : trim ("LBL ".toList ++ name ++ [';']) = "LBL ".toList ++ name ++ [';'] := by
    rw [trim, htl, htrr]
  have hemp : ("LBL ".toList ++ name ++ [';']).isEmpty = false := by
    rw [show "LBL ".toList ++ name ++ [';'] = 'L' :: ("BL ".toList ++ name ++ [';']) from rfl]
    rfl
  have hso : splitOnceChar ';' ("LBL ".toList ++ name ++ [';']) =
      some ("LBL ".toList ++ name, []) := by
    refine splitOnceChar_append [] ?_
    intro hm
    rcases List.mem_append.mp hm with hm | hm
    · simp at hm
    · exact hsemi hm
  have hcol : splitOnceChar ':' ("LBL ".toList ++ name) = none := by
    apply splitOnceChar_not_mem
    intro hm
    rcases List.mem_append.mp hm with hm | hm
    · simp at hm
    · exact hcoln hm
  have htl2 : trimLeft ("LBL ".toList ++ name) = "LBL ".toList ++ name := by
    rw [show "LBL ".toList ++ name = 'L' :: ("BL ".toList ++ name) from rfl]
    exact trimLeft_cons_not_ws _ (by decide)
  have htrn : trimRight name = name := trimRight_no_ws hws
  have htrr2 : trimRight ("LBL ".toList ++ name) = "LBL ".toList ++ name := by
    rw [trimRight_append (by rw [htrn]; exact hne), htrn]
  have htrim2 : trim ("LBL ".toList ++ name) = "LBL ".toList ++ name := by
    rw [trim, htl2, htrr2]
  have hsp : splitOnceChar ' ' ("LBL ".toList ++ name) = some (['L', 'B', 'L'], name) := by
    rw [show "LBL ".toList ++ name = ['L', 'B', 'L'] ++ ' ' :: name from rfl]
    exact splitOnceChar_append name (by decide)
  have hargs : argsOf name = [name] := argsOf_single hne hws hcomn
  simp only [processLine, h1, htrim, hemp, hso, hcol, htrim2, hsp, hargs]
  rw [if_neg (by decide), if_neg (by decide)]
  have hup : toUpper ['L', 'B', 'L'] = ['L', 'B', 'L'] := rfl
  have hop : opMapGet ['L', 'B', 'L'] = some (-1) := rfl
  simp only [processInstr, htrim2, hsp, hup, hop, hargs]
  rw [if_neg (by decide), if_pos (by decide)]
  simp only [processLabelOp, List.length_singleton, List.headD_cons]
  rw [if_neg (by decide), if_neg (by decide), if_pos trivial]

/-- Assembling a one-line file is the line loop on that single line followed
by the resolution pass. -/
theorem assembleL_single (line : List Char) (hnl : ('\n' : Char) ∉ line) :
    assembleL line =
      match processLine 0 line initState with
      | .error e => .error e
      | .ok st =>
        match resolveAll st.label_map st.lbl_lines 0 st.instructions with
        | .error e => .error e
        | .ok ins => .ok ⟨st.reg_inits, st.mem_inits, ins⟩ := by
  unfold assembleL
  rw [splitOnChar_not_mem hnl]
  rcases hp : processLine 0 line initState with e | st
  · simp only [runLines, hp]
  · simp only [runLines, hp]

/-- C1.  A `LBL` declaration emits no instruction — the register, memory and
instruction lists are untouched — and binds its name to the count of
instructions emitted so far minus one; in particular the spec's example
program assembles to exactly 3 instructions, the third being `BIZ` with the
resolved target `-1` (the label was declared before any instruction). -/
theorem C1_lbl_binds_count_minus_one :
    (∀ (i : Nat) (name : List Char) (st : AsmState),
      name ≠ [] →
      (∀ c ∈ name, isWs c = false ∧ c ≠ ';' ∧ c ≠ '#' ∧ c ≠ ':' ∧ c ≠ ',') →
      cnameMatches name = true →
      alookup name st.label_map = none →
      processLine i ("LBL ".toList ++ name ++ [';']) st =
        .ok { st with label_map := (name, (st.instructions.length : Int) - 1) :: st.label_map }) ∧
    assemble "LBL Jump;\nADD E,7;\nSF E;\nBIZ Jump;" =
      .ok ⟨[], [], [.ADD 14 7, .SF 14, .BIZ (-1)]⟩ := by
  constructor
  · intro i name st hne hok hcm hlook
    rw [processLine_LBL i name st hne hok, if_neg (by simp [hcm]), if_neg (by simp [hlook])]
  · decide

/-- Witness for C1 at a concrete line: `LBL Jump;` on the initial assembler
state binds `Jump` to `-1` and emits nothing. -/
theorem C1_lbl_binds_witness :
    processLine 0 ("LBL ".toList ++ "Jump".toList ++ [';']) initState =
      .ok ⟨[], [], [], [], [("Jump".toList, -1)]⟩ := by
  have h := C1_lbl_binds_count_minus_one.1 0 "Jump".toList initState (by decide)
    (by decide) (by decide) (by decide)
  simpa using h

/-- C7 counterexample.  The claim says a `LBL` name is accepted only when
the whole name is a valid identifier; but the `IS_CNAME` regex is used
unanchored, so the name `1a` — not an identifier, it starts with a digit —
is accepted (the regex matches its substring `a`). -/
theorem C7_counterexample :
    assemble "LBL 1a;" = .ok ⟨[], [], []⟩ ∧ isValidIdentSpec "1a".toList = false := by
  refine ⟨by decide, by decide⟩

/-- C7 (amended).  Because `IS_CNAME.is_match` is unanchored, a `LBL`
declaration is accepted exactly when its name *contains at least one*
underscore or ASCII letter anywhere (`cnameMatches`); a name with no such
character fails the whole assembly with a line-numbered diagnostic. -/
theorem C7_lbl_name_check_unanchored (name : List Char)
    (hne : name ≠ [])
    (hok : ∀ c ∈ name, isWs c = false ∧ c ≠ ';' ∧ c ≠ '#' ∧ c ≠ ':' ∧ c ≠ ',') :
    (cnameMatches name = true →
      assembleL ("LBL ".toList ++ name ++ [';']) = .ok ⟨[], [], []⟩) ∧
    (cnameMatches name = false →
      assembleL ("LBL ".toList ++ name ++ [';']) =
        .error ⟨0, "Label name is not a valid cname - '" ++ String.mk name ++ "'"⟩) := by
  have hnl : ('\n' : Char) ∉ "LBL ".toList ++ name ++ [';'] := by
    intro hm
    rcases List.mem_append.mp hm with hm | hm
    · rcases List.mem_append.mp hm with hm | hm
      · simp at hm
      · have := (hok _ hm).1
        simp [isWs] at this
    · simp at hm
  constructor
  · intro hcm
    rw [assembleL_single _ hnl, processLine_LBL 0 name initState hne hok,
      if_neg (by simp [hcm]), if_neg (by simp [alookup])]
    rfl
  · intro hcm
    rw [assembleL_single _ hnl, processLine_LBL 0 name initState hne hok, if_pos hcm]

/-- Witness for C7 at concrete names: `_x` contains an identifier character
and is accepted; `123` contains none and is rejected on line 1. -/
theorem C7_lbl_name_check_witness :
    assembleL ("LBL ".toList ++ "_x".toList ++ [';']) = .ok ⟨[], [], []⟩ ∧
    assembleL ("LBL ".toList ++ "123".toList ++ [';']) =
      .error ⟨0, "Label name is not a valid cname - '" ++ String.mk "123".toList ++ "'"⟩ :=
  ⟨(C7_lbl_name_check_unanchored "_x".toList (by decide) (by decide)).1 (by decide),
   (C7_lbl_name_check_unanchored "123".toList (by decide) (by decide)).2 (by decide)⟩

/-- C10.  Empty items produced by splitting the instruction arguments on
commas are dropped before arity checking: doubling a comma or appending a
trailing comma never changes the parsed argument list, and the claim's
concrete lines `ADD A,,B;` and `ADD A, B,;` assemble to exactly the same
single instruction as `ADD A,B;`. -/
theorem C10_empty_args_dropped :
    (∀ a b : List Char, argsOf (a ++ ',' :: ',' :: b) = argsOf (a ++ ',' :: b)) ∧
    (∀ a : List Char, argsOf (a ++ [',']) = argsOf a) ∧
    assemble "ADD A,,B;" = assemble "ADD A,B;" ∧
    assemble "ADD A, B,;" = assemble "ADD A,B;" ∧
    assemble "ADD A,B;" = .ok ⟨[], [], [.ADD 10 11]⟩ := by
  have h0 : ∀ l : List Char, argsOf (',' :: l) = argsOf l := by
    intro l
    have h := argsOf_append [] l
    simpa using h
  refine ⟨?_, ?_, by decide, by decide, by decide⟩
  · intro a b
    rw [argsOf_append, argsOf_append, h0]
  · intro a
    have h := argsOf_append a []
    rw [show argsOf ([] : List Char) = [] from rfl, List.append_nil] at h
    exact h

/-- C8 counterexample.  The claim says every input line other than the empty
line and `n`, `b`, `c`, `r`, `q` is a fatal usage error — but the source
keeps only the first character of the trimmed input (`s[0..1]`), so the
line `no` is accepted and treated as a step, and the session completes
normally. -/
theorem C8_counterexample :
    run_debug [.SF 5]
      2 ⟨[0, 0, 0, 0, 0, 0, 1, 0xffffffff, 0, 0, 0, 0, 0, 0, 0, 0], [], 0, 0, false, false⟩
      [] false true [['n', 'o']] =
      .completed ⟨[1, 0, 0, 0, 0, 0, 1, 0xffffffff, 0, 0, 0, 0, 0, 0, 0, 0],
        [], 0, 0, true, true⟩ ∧
    (['n', 'o'] : List Char) ∉ ([[], ['n'], ['b'], ['c'], ['r'], ['q']] : List (List Char)) := by
  refine ⟨by decide, by decide⟩

/-- C8 (amended).  The debug prompt keeps only the first character of the
trimmed input, lowercased (an empty line reads as `n`): inputs whose first
character is `n`, `b`, `c`, `r` or `q` have the listed effects (step;
toggle the breakpoint at the current address and re-prompt; toggle
continue-mode; drop to non-interactive run; abort), and any other input is
fatal — `promptLoop` panics and the debug session ends as `panicked`. -/
theorem C8_debug_command_set (pc : Int) (bps : List Int) (s : List Char)
    (rest : List (List Char)) :
    (trim s = [] → interpInput s = ['n']) ∧
    (interpInput s = ['n'] → promptLoop pc bps (s :: rest) = some (bps, rest, .n)) ∧
    (interpInput s = ['b'] → promptLoop pc bps (s :: rest) =
      promptLoop pc (if bps.contains pc then bps.erase pc else pc :: bps) rest) ∧
    (interpInput s = ['c'] → promptLoop pc bps (s :: rest) = some (bps, rest, .c)) ∧
    (interpInput s = ['r'] → promptLoop pc bps (s :: rest) = some (bps, rest, .r)) ∧
    (interpInput s = ['q'] → promptLoop pc bps (s :: rest) = some (bps, rest, .q)) ∧
    (interpInput s ≠ ['n'] → interpInput s ≠ ['b'] → interpInput s ≠ ['c'] →
      interpInput s ≠ ['r'] → interpInput s ≠ ['q'] →
      promptLoop pc bps (s :: rest) = none) ∧
    (∀ (code : List Instruction) (fuel : Nat) (vm : VM) (op : Instruction)
        (inputs : List (List Char)),
      reg0 vm < (code.length : Int) → 0 ≤ reg0 vm →
      code[(reg0 vm).toNat]? = some op →
      promptLoop (reg0 vm) bps inputs = none →
      run_debug code (fuel + 1) vm bps false true inputs = .panicked) := by
  refine ⟨?_, ?_, ?_, ?_, ?_, ?_, ?_, ?_⟩
  · intro h
    simp [interpInput, h]
  · intro h
    simp [promptLoop, h]
  · intro h
    simp [promptLoop, h]
  · intro h
    simp [promptLoop, h]
  · intro h
    simp [promptLoop, h]
  · intro h
    simp [promptLoop, h]
  · intro h1 h2 h3 h4 h5
    simp only [promptLoop]
    rw [if_neg h1, if_neg h2, if_neg h3, if_neg h4, if_neg h5]
  · intro code fuel vm op inputs h1 h2 hfetch hpl
    simp only [run_debug]
    rw [if_pos h1, if_pos h2, hfetch]
    simp [hpl]

/-- Witness for C8 at a concrete prompt: the input `b` toggles a breakpoint
at address 0 and re-prompts, an unrecognized input `x` is fatal, and a
session fed only `x` panics. -/
theorem C8_debug_command_witness :
    promptLoop 0 [] [['b'], ['q']] = promptLoop 0 [0] [['q']] ∧
    promptLoop 0 [] [['x']] = none ∧
    run_debug [Instruction.SF 5]
      1 ⟨[0, 0, 0, 0, 0, 0, 1, 0xffffffff, 0, 0, 0, 0, 0, 0, 0, 0], [], 0, 0, false, false⟩
      [] false true [['x']] = .panicked := by
  refine ⟨?_, ?_, ?_⟩
  · have h := (C8_debug_command_set 0 [] ['b'] [['q']]).2.2.1 (by decide)
    simpa using h
  · exact (C8_debug_command_set 0 [] ['x'] []).2.2.2.2.2.2.1 (by decide) (by decide)
      (by decide) (by decide) (by decide)
  · exact (C8_debug_command_set 0 [] ['x'] []).2.2.2.2.2.2.2
      [Instruction.SF 5] 0
      ⟨[0, 0, 0, 0, 0, 0, 1, 0xffffffff, 0, 0, 0, 0, 0, 0, 0, 0], [], 0, 0, false, false⟩
      (.SF 5) [['x']] (by decide) (by decide) (by decide) (by decide)

/-- Abort results of `run_debug` only arise from a prompt whose inner loop
returned the `q` command, at the very state the result carries. -/
theorem run_debug_aborted_from_q {code : List Instruction} {fuel : Nat} {vm : VM}
    {bps : List Int} {cont debug : Bool} {inputs : List (List Char)} {vmA : VM}
    (h : run_debug code fuel vm bps cont debug inputs = .aborted vmA) :
    ∃ bps2 inputs2 bps3 inputs3,
      reg0 vmA < (code.length : Int) ∧
      promptLoop (reg0 vmA) bps2 inputs2 = some (bps3, inputs3, DbgCmd.q) := by
  induction fuel generalizing vm bps cont debug inputs with
  | zero => simp [run_debug] at h
  | succ f ih =>
    simp only [run_debug] at h
    by_cases hc : reg0 vm < (code.length : Int)
    · rw [if_pos hc] at h
      split at h
      · cases h
      · split at h
        · split at h
          · cases h
          · rename_i hpl
            split at h
            · injection h with h2
              subst h2
              exact ⟨bps, inputs, _, _, hc, hpl⟩
            · split at h
              · cases h
              · exact ih h
            · split at h
              · cases h
              · exact ih h
            · split at h
              · cases h
              · exact ih h
        · split at h
          · cases h
          · exact ih h
    · rw [if_neg hc] at h
      cases h

/-- C9.  The debug session reports non-completion (Rust `return false`,
`aborted` here) exactly through the operator's `q` command, and the abort
is atomic: the machine state returned is exactly the state at which the
pending instruction was displayed — that instruction is not executed.  When
instead the program counter passes the last instruction, the session
reports completion (`return true`) with the state unchanged from the loop
exit. -/
theorem C9_debug_abort_and_completion (code : List Instruction) (fuel : Nat) (vm : VM)
    (bps : List Int) (cont debug : Bool) (inputs : List (List Char)) :
    ((code.length : Int) ≤ reg0 vm →
      run_debug code (fuel + 1) vm bps cont debug inputs = .completed vm) ∧
    (∀ (op : Instruction) (bps2 : List Int) (inputs2 : List (List Char)),
      reg0 vm < (code.length : Int) → 0 ≤ reg0 vm →
      code[(reg0 vm).toNat]? = some op →
      debug = true → (cont = false ∨ bps.contains (reg0 vm) = true) →
      promptLoop (reg0 vm) bps inputs = some (bps2, inputs2, .q) →
      run_debug code (fuel + 1) vm bps cont debug inputs = .aborted vm) ∧
    (∀ (f : Nat) (v : VM) (bps' : List Int) (cont' debug' : Bool)
        (inputs' : List (List Char)) (vmA : VM),
      run_debug code f v bps' cont' debug' inputs' = .aborted vmA →
      ∃ bps2 inputs2 bps3 inputs3,
        reg0 vmA < (code.length : Int) ∧
        promptLoop (reg0 vmA) bps2 inputs2 = some (bps3, inputs3, DbgCmd.q)) := by
  refine ⟨?_, ?_, ?_⟩
  · intro h
    simp only [run_debug]
    rw [if_neg (not_lt.mpr h)]
  · intro op bps2 inputs2 h1 h2 hfetch hdbg hcond hpl
    simp only [run_debug]
    rw [if_pos h1, if_pos h2, hfetch]
    subst hdbg
    rcases hcond with hcond | hcond
    · subst hcond
      simp [hpl]
    · have hmem2 : reg0 vm ∈ bps := by simpa using hcond
      simp [hpl, hcond]
      intro hcont hmem
      exact absurd hmem2 hmem
  · intro f v bps' cont' debug' inputs' vmA h
    exact run_debug_aborted_from_q h

/-- Witness for C9 at concrete sessions: a machine already past the single
instruction completes untouched, and entering `q` at the first prompt
aborts with the displayed state unchanged. -/
theorem C9_debug_witness :
    run_debug [Instruction.SF 5] 1 ⟨[1, 0], [], 0, 0, false, false⟩ [] false true [] =
      .completed ⟨[1, 0], [], 0, 0, false, false⟩ ∧
    run_debug [Instruction.SF 5]
      1 ⟨[0, 0, 0, 0, 0, 0, 1, 0xffffffff, 0, 0, 0, 0, 0, 0, 0, 0], [], 0, 0, false, false⟩
      [] false true [['q']] =
      .aborted ⟨[0, 0, 0, 0, 0, 0, 1, 0xffffffff, 0, 0, 0, 0, 0, 0, 0, 0],
        [], 0, 0, false, false⟩ :=
  ⟨(C9_debug_abort_and_completion [Instruction.SF 5] 0 ⟨[1, 0], [], 0, 0, false, false⟩
      [] false true []).1 (by decide),
   (C9_debug_abort_and_completion [Instruction.SF 5] 0
      ⟨[0, 0, 0, 0, 0, 0, 1, 0xffffffff, 0, 0, 0, 0, 0, 0, 0, 0], [], 0, 0, false, false⟩
      [] false true [['q']]).2.1 (.SF 5) [] [] (by decide) (by decide) (by decide) rfl
      (Or.inl rfl) (by decide)⟩

end Vmal
